import Mathlib

/-!
Verification of the metric/tag normalization and submission layer of
`datadog_checks_base/datadog_checks/checks/base.py` (class `AgentCheck`).

Strings of the Python 2 byte-string (`str`) kind are embedded as `List Char`;
each regex substitution of the source is embedded as an executable function
with Python `re.sub` semantics (left-to-right scan, non-overlapping matches,
greedy quantifiers, ordered alternation).  The `unicode` NFKD transliteration
branch of `normalize` (taken only for `unicode` metric names) is not modelled:
the embedding covers the plain `str` path.
-/

namespace AgentCheck

/-- ASCII uppercase letter, the `[A-Z]` character class of the source regexes. -/
def isAsciiUpper (c : Char) : Bool := 65 ≤ c.toNat && c.toNat ≤ 90

/-- ASCII lowercase letter, the `[a-z]` character class of the source regexes. -/
def isAsciiLower (c : Char) : Bool := 97 ≤ c.toNat && c.toNat ≤ 122

/-- ASCII letter, the `[a-zA-Z]` character class of the source regexes. -/
def isAsciiAlpha (c : Char) : Bool := isAsciiUpper c || isAsciiLower c

/-- ASCII digit, the `[0-9]` character class of the source regexes. -/
def isAsciiDigit (c : Char) : Bool := 48 ≤ c.toNat && c.toNat ≤ 57

/-- Python 2 whitespace class on byte strings: space, tab, newline, carriage
return, form feed, vertical tab. -/
def isPySpace (c : Char) : Bool :=
  c == ' ' || c == '\t' || c == '\n' || c == '\r' ||
  c == Char.ofNat 11 || c == Char.ofNat 12

/-- Characters substituted in the `fix_case=False` branch of `normalize`:
comma, plus, star, minus, slash, parentheses, square brackets, curly braces
and whitespace. -/
def falseClassChar (c : Char) : Bool :=
  c == ',' || c == '+' || c == '*' || c == '-' || c == '/' || c == '(' ||
  c == ')' || c == '[' || c == ']' || c == Char.ofNat 123 ||
  c == Char.ofNat 125 || isPySpace c

/-- Embeds the `fix_case=False` branch substitution of `normalize`: every
character of the class becomes an underscore (pure character-wise map). -/
def charClassSub (l : List Char) : List Char :=
  l.map (fun c => if falseClassChar c then '_' else c)

/-- Recursion core of the `FIRST_CAP_RE` substitution, structurally
recursive on a fuel argument so that the kernel can evaluate it; every
recursive call consumes at least one character, so fuel equal to the input
length (as passed by the wrapper) is never exhausted. -/
def firstCapGo : Nat → List Char → List Char
  | 0, l => l
  | fuel + 1, x :: u :: l :: rest =>
    if x ≠ '\n' ∧ isAsciiUpper u ∧ isAsciiLower l then
      x :: '_' :: u ::
        ((l :: rest).takeWhile isAsciiLower ++
          firstCapGo fuel ((l :: rest).dropWhile isAsciiLower))
    else
      x :: firstCapGo fuel (u :: l :: rest)
  | _ + 1, other => other

/-- Embeds `FIRST_CAP_RE = re.compile('(.)([A-Z][a-z]+)')` substituted with
the replacement inserting an underscore between the two groups: any character
(except newline, which the dot does not match) followed by an uppercase
letter and a maximal nonempty run of lowercase letters gets an underscore
inserted after it; scanning resumes after the consumed match. -/
def firstCapSub (l : List Char) : List Char := firstCapGo l.length l

/-- Embeds `ALL_CAP_RE = re.compile('([a-z0-9])([A-Z])')` substituted with
the replacement inserting an underscore between the two groups: a lowercase
letter or digit immediately followed by an uppercase letter gets an
underscore inserted between them; scanning resumes after the match. -/
def allCapSub : List Char → List Char
  | x :: y :: rest =>
    if (isAsciiLower x || isAsciiDigit x) && isAsciiUpper y then
      x :: '_' :: y :: allCapSub rest
    else
      x :: allCapSub (y :: rest)
  | other => other

/-- Python 2 lowercasing of one byte: ASCII uppercase maps to lowercase. -/
def pyLowerChar (c : Char) : Char :=
  if isAsciiUpper c then Char.ofNat (c.toNat + 32) else c

/-- Python 2 `str.lower()`. -/
def pyLower (l : List Char) : List Char := l.map pyLowerChar

/-- The `[a-zA-Z0-9_.]` class: characters NOT matched by the first branch of
`METRIC_REPLACEMENT = re.compile('([^a-zA-Z0-9_.]+)|(^[^a-zA-Z]+)')`. -/
def metricAllowed (c : Char) : Bool :=
  isAsciiAlpha c || isAsciiDigit c || c == '_' || c == '.'

/-- Recursion core of the away-from-position-0 `METRIC_REPLACEMENT`
substitution, structurally recursive on a fuel argument so that the kernel
can evaluate it; every recursive call consumes at least one character, so
fuel equal to the input length (as passed by the wrapper) is never
exhausted. -/
def metricSubGo : Nat → List Char → List Char
  | 0, l => l
  | _ + 1, [] => []
  | fuel + 1, c :: rest =>
    if metricAllowed c then c :: metricSubGo fuel rest
    else '_' :: metricSubGo fuel (rest.dropWhile (fun d => !metricAllowed d))

/-- Embeds the `METRIC_REPLACEMENT` substitution away from position 0: only
the first alternative `[^a-zA-Z0-9_.]+` can match there (the second is
anchored); each maximal run of disallowed characters becomes one underscore. -/
def metricSubRest (l : List Char) : List Char := metricSubGo l.length l

/-- Embeds the full `METRIC_REPLACEMENT` substitution with an underscore: at
position 0 the ordered alternation first tries `[^a-zA-Z0-9_.]+`, and only
then the anchored leading run of non-letters; afterwards only the first
branch applies. -/
def metricReplacementSub : List Char → List Char
  | [] => []
  | c :: rest =>
    if !metricAllowed c then
      '_' :: metricSubRest (rest.dropWhile (fun d => !metricAllowed d))
    else if !isAsciiAlpha c then
      '_' :: metricSubRest (rest.dropWhile (fun d => !isAsciiAlpha d))
    else c :: metricSubRest rest

/-- Recursion core of the `DOT_UNDERSCORE_CLEANUP` substitution,
structurally recursive on a fuel argument so that the kernel can evaluate
it; every recursive call consumes at least one character, so fuel equal to
the input length (as passed by the wrapper) is never exhausted. -/
def dotCleanupGo : Nat → List Char → List Char
  | 0, l => l
  | _ + 1, [] => []
  | fuel + 1, c :: rest =>
    if c == '.' then '.' :: dotCleanupGo fuel (rest.dropWhile (fun d => d == '_'))
    else if c == '_' then
      match rest.dropWhile (fun d => d == '_') with
      | '.' :: rest2 => '.' :: dotCleanupGo fuel (rest2.dropWhile (fun d => d == '_'))
      | _ => '_' :: dotCleanupGo fuel rest
    else c :: dotCleanupGo fuel rest

/-- Embeds the `DOT_UNDERSCORE_CLEANUP` substitution (a dot and the maximal
underscore runs around it collapse to a bare dot).  A match must contain a
dot: at an underscore whose run is not followed by a dot the match fails and
scanning advances one position. -/
def dotCleanup (l : List Char) : List Char := dotCleanupGo l.length l

/-- Python `s.strip('_')` as used in `convert_to_underscore_separated`:
remove every leading and every trailing underscore. -/
def stripUnderscores (l : List Char) : List Char :=
  ((l.dropWhile (fun d => d == '_')).reverse.dropWhile (fun d => d == '_')).reverse

/-- Embeds `AgentCheck.convert_to_underscore_separated`: the `FIRST_CAP_RE`
substitution, the `ALL_CAP_RE` substitution, lowercasing, the
`METRIC_REPLACEMENT` substitution, the `DOT_UNDERSCORE_CLEANUP` substitution
and the underscore strip, in source order. -/
def convertToUnderscoreSeparated (name : List Char) : List Char :=
  stripUnderscores (dotCleanup (metricReplacementSub (pyLower (allCapSub (firstCapSub name)))))

/-- Embeds the double-underscore collapse of `normalize`: every maximal run
of two or more underscores collapses to a single underscore. -/
def collapseU : List Char → List Char
  | [] => []
  | [c] => [c]
  | c₁ :: c₂ :: rest =>
    if c₁ == '_' && c₂ == '_' then collapseU (c₂ :: rest)
    else c₁ :: collapseU (c₂ :: rest)

/-- Embeds the leading-underscore strip of `normalize`: remove one leading
underscore. -/
def stripLeadingU (l : List Char) : List Char :=
  if l.head? = some '_' then l.tail else l

/-- Embeds the trailing-underscore strip of `normalize`: remove one trailing
underscore. -/
def stripTrailingU (l : List Char) : List Char :=
  if l.getLast? = some '_' then l.dropLast else l

/-- Embeds the dot-underscore substitution of `normalize`: each
non-overlapping, leftmost occurrence of a dot followed by an underscore
becomes a bare dot. -/
def subDU : List Char → List Char
  | [] => []
  | [c] => [c]
  | x :: y :: rest =>
    if x == '.' && y == '_' then '.' :: subDU rest
    else x :: subDU (y :: rest)

/-- Embeds the underscore-dot substitution of `normalize`: each
non-overlapping, leftmost occurrence of an underscore followed by a dot
becomes a bare dot. -/
def subUD : List Char → List Char
  | [] => []
  | [c] => [c]
  | x :: y :: rest =>
    if x == '_' && y == '.' then '.' :: subUD rest
    else x :: subUD (y :: rest)

/-- The five cleanup substitutions `normalize` applies to the branch output,
in source order. -/
def nameCleanup (l : List Char) : List Char :=
  subUD (subDU (stripTrailingU (stripLeadingU (collapseU l))))

/-- Embeds `AgentCheck.normalize(metric, prefix, fix_case)` for `str`
metrics: branch on `fix_case`, apply the five cleanup substitutions to the
name, and prepend the (raw, or case-converted when `fix_case` is set) prefix
with a dot. -/
def normalize (metric : List Char) (pfx : Option (List Char))
    (fixCase : Bool) : List Char :=
  let name := if fixCase then convertToUnderscoreSeparated metric
              else charClassSub metric
  let pfx' := if fixCase then pfx.map convertToUnderscoreSeparated else pfx
  match pfx' with
  | some p => p ++ '.' :: nameCleanup name
  | none => nameCleanup name

/-- Holds when the list contains the two characters `a`, `b` adjacently, in
that order: the executable form of "contains the two-character substring". -/
def hasPair (a b : Char) : List Char → Bool
  | x :: y :: rest => (x == a && y == b) || hasPair a b (y :: rest)
  | _ => false

/-- Python 2 values as they flow through the tag/event paths of the source:
byte strings, `unicode` strings (carrying the result of a `.encode('utf-8')`
attempt, `none` when encoding raises `UnicodeError`), integers, lists, and
other objects (carrying the result of a `str()` attempt, `none` when the
conversion raises). -/
inductive PyVal where
  | str (s : List Char)
  | uni (s : List Char) (enc : Option (List Char))
  | int (n : Int)
  | list (l : List PyVal)
  | obj (strRes : Option (List Char))

/-- Python 2 `isinstance(tag, basestring)`: `str` and `unicode` values. -/
def isBasestring : PyVal → Bool
  | .str _ => true
  | .uni _ _ => true
  | _ => false

/-- Modelled from the spec: `ensure_bytes` (imported from
`datadog_checks.utils.common`, whose source is not in the repository slice)
coerces a `basestring` to a utf-8 byte string, raising `UnicodeError` when
the unicode value cannot be encoded — the failure the caller's
`except UnicodeError` branches in `_normalize_tags_type` and `event` handle.
A byte string passes through unchanged; it is only called on basestrings. -/
def ensureBytes : PyVal → Option (List Char)
  | .str s => some s
  | .uni _ enc => enc
  | _ => none

/-- Decimal rendering of an integer, Python `str` of an `int`. -/
def intRepr (n : Int) : List Char :=
  if n < 0 then '-' :: Nat.toDigits 10 n.natAbs else Nat.toDigits 10 n.toNat

/-- Python `repr`, used by `str()` on lists.  Quote escaping inside string
reprs and the address part of default object reprs are not modelled (no
claim exercises them). -/
def pyRepr : PyVal → List Char
  | .str s => '\'' :: (s ++ ['\''])
  | .uni s _ => 'u' :: '\'' :: (s ++ ['\''])
  | .int n => intRepr n
  | .obj _ => "<object>".toList
  | .list l =>
    '[' :: (List.intercalate ", ".toList (l.attach.map (fun x => pyRepr x.1)) ++ [']'])
termination_by v => sizeOf v
decreasing_by
  have h := List.sizeOf_lt_of_mem x.2
  simp
  omega

/-- Python 2 `str(value)`: identity on byte strings, decimal for integers,
repr for lists, the object's own conversion for other objects (`none` models
a raising conversion).  For `unicode` values `str` is modelled as returning
the code points unchanged (the claims only exercise ASCII data here). -/
def pyStrOfVal : PyVal → Option (List Char)
  | .str s => some s
  | .uni s _ => some s
  | .int n => some (intRepr n)
  | .list l => some (pyRepr (.list l))
  | .obj r => r

/-- Accumulator pass of the decimal parser backing the `int(...)` model. -/
def parseNatCore : List Char → Nat → Option Nat
  | [], acc => some acc
  | c :: rest, acc =>
    if isAsciiDigit c then parseNatCore rest (acc * 10 + (c.toNat - 48))
    else none

/-- Decimal digits to a natural number; empty or non-digit input fails. -/
def parseNat : List Char → Option Nat
  | [] => none
  | l => parseNatCore l 0

/-- Decimal string (with optional leading minus) to an integer. -/
def parseDec : List Char → Option Int
  | '-' :: rest => (parseNat rest).map (fun n => -(n : Int))
  | l => (parseNat l).map (fun n => (n : Int))

/-- Python 2 `int(value)` as used on the event timestamp: integers pass
through, numeric strings parse, anything else raises (`none`).  Floats are
outside the modelled value space. -/
def pyInt : PyVal → Option Int
  | .int n => some n
  | .str s => parseDec s
  | .uni s _ => parseDec s
  | _ => none

/-- Python truthiness of the modelled values. -/
def pyTruthy : PyVal → Bool
  | .str s => !s.isEmpty
  | .uni s _ => !s.isEmpty
  | .int n => n != 0
  | .list l => !l.isEmpty
  | .obj _ => true

/-- One iteration body of the `_normalize_tags_type` loop: a non-basestring
tag goes through `str(tag)`, a basestring through `ensure_bytes(tag)`; a
`none` is the caught exception after which the source logs and `continue`s. -/
def coerceTag (t : PyVal) : Option (List Char) :=
  if isBasestring t then ensureBytes t else pyStrOfVal t

/-- Embeds the loop of `AgentCheck._normalize_tags_type`: each tag is
coerced; tags whose coercion raises are skipped, the rest are appended in
order. -/
def normalizeTagsTypeList : List PyVal → List (List Char)
  | [] => []
  | t :: rest =>
    match coerceTag t with
    | some s => s :: normalizeTagsTypeList rest
    | none => normalizeTagsTypeList rest

/-- Embeds `AgentCheck._normalize_tags_type(tags)`: `None` yields the empty
list, otherwise the loop above runs. -/
def normalizeTagsType : Option (List PyVal) → List (List Char)
  | none => []
  | some l => normalizeTagsTypeList l

/-- Explicit state of the `_normalize_tags_type` loop: the list object the
caller passed (`tags`), the iterator position, and the `normalized_tags`
list under construction. -/
structure TagLoopState where
  tags : List PyVal
  i : Nat
  normalized : List (List Char)

/-- One iteration of the `_normalize_tags_type` loop on the explicit state:
reads `tags[i]`, appends the coerced tag (or skips it) on `normalized_tags`,
and advances.  The body translated from the source only reads `tags`. -/
def tagLoopStep (st : TagLoopState) : TagLoopState :=
  match st.tags[st.i]? with
  | none => st
  | some tag =>
    let out := match coerceTag tag with
      | some s => st.normalized ++ [s]
      | none => st.normalized
    { tags := st.tags, i := st.i + 1, normalized := out }

/-- Runs `n` iterations of the tag loop. -/
def tagLoopIter : Nat → TagLoopState → TagLoopState
  | 0, st => st
  | n + 1, st => tagLoopIter n (tagLoopStep st)

/-- The full `_normalize_tags_type` loop on the explicit state, started on
the caller's list with an empty `normalized_tags`. -/
def normalizeTagsTypeLoop (tags : List PyVal) : TagLoopState :=
  tagLoopIter tags.length { tags := tags, i := 0, normalized := [] }

/-- Embeds `AgentCheck._normalize_tags`: copy the tags (or start empty for
`None`), append the deprecated `device:` tag for a truthy device name, then
normalize the types. -/
def normalizeTagsWithDevice (tags : Option (List PyVal))
    (deviceName : Option (List Char)) : List (List Char) :=
  let base := tags.getD []
  let withDev := match deviceName with
    | some d => if d.isEmpty then base else base ++ [PyVal.str ("device:".toList ++ d)]
    | none => base
  normalizeTagsTypeList withDev

/-- The metric types the aggregator accepts (`aggregator.GAUGE`, ...,
`aggregator.COUNTER` for the deprecated increment/decrement path). -/
inductive MType where
  | gauge | count | monotonicCount | rate | histogram | historate | counter
deriving DecidableEq, Repr

/-- One `aggregator.submit_metric` call as recorded by the aggregator:
type, name, float value (modelled as a rational — the claims only exercise
the `None` path), normalized tags and hostname. -/
structure MetricRecord where
  mtype : MType
  name : List Char
  value : Rat
  tags : List (List Char)
  hostname : List Char

/-- Embeds `AgentCheck._submit_metric`: a `None` value returns immediately
(nothing submitted); otherwise tags are normalized, a missing hostname
becomes empty, and the sample is submitted to the aggregator (the state is
the aggregator's list of received samples). -/
def submitMetricFn (mtype : MType) (name : List Char) (value : Option Rat)
    (tags : Option (List PyVal)) (hostname : Option (List Char))
    (deviceName : Option (List Char)) (st : List MetricRecord) :
    List MetricRecord :=
  match value with
  | none => st
  | some v =>
    st ++ [{ mtype := mtype, name := name, value := v,
             tags := normalizeTagsWithDevice tags deviceName,
             hostname := hostname.getD [] }]

/-- Embeds `AgentCheck.gauge`. -/
def gaugeFn (name : List Char) (value : Option Rat) (tags : Option (List PyVal))
    (hostname deviceName : Option (List Char)) (st : List MetricRecord) :
    List MetricRecord :=
  submitMetricFn .gauge name value tags hostname deviceName st

/-- Embeds `AgentCheck.count`. -/
def countFn (name : List Char) (value : Option Rat) (tags : Option (List PyVal))
    (hostname deviceName : Option (List Char)) (st : List MetricRecord) :
    List MetricRecord :=
  submitMetricFn .count name value tags hostname deviceName st

/-- Embeds `AgentCheck.monotonic_count`. -/
def monotonicCountFn (name : List Char) (value : Option Rat)
    (tags : Option (List PyVal)) (hostname deviceName : Option (List Char))
    (st : List MetricRecord) : List MetricRecord :=
  submitMetricFn .monotonicCount name value tags hostname deviceName st

/-- Embeds `AgentCheck.rate`. -/
def rateFn (name : List Char) (value : Option Rat) (tags : Option (List PyVal))
    (hostname deviceName : Option (List Char)) (st : List MetricRecord) :
    List MetricRecord :=
  submitMetricFn .rate name value tags hostname deviceName st

/-- Embeds `AgentCheck.histogram`. -/
def histogramFn (name : List Char) (value : Option Rat) (tags : Option (List PyVal))
    (hostname deviceName : Option (List Char)) (st : List MetricRecord) :
    List MetricRecord :=
  submitMetricFn .histogram name value tags hostname deviceName st

/-- Embeds `AgentCheck.historate`. -/
def historateFn (name : List Char) (value : Option Rat) (tags : Option (List PyVal))
    (hostname deviceName : Option (List Char)) (st : List MetricRecord) :
    List MetricRecord :=
  submitMetricFn .historate name value tags hostname deviceName st

/-- Embeds `AgentCheck.increment` (deprecated counter); the deprecation log
does not touch the aggregator and the aggregator state is what is modelled. -/
def incrementFn (name : List Char) (value : Option Rat) (tags : Option (List PyVal))
    (hostname deviceName : Option (List Char)) (st : List MetricRecord) :
    List MetricRecord :=
  submitMetricFn .counter name value tags hostname deviceName st

/-- Embeds `AgentCheck.decrement` (deprecated counter). -/
def decrementFn (name : List Char) (value : Option Rat) (tags : Option (List PyVal))
    (hostname deviceName : Option (List Char)) (st : List MetricRecord) :
    List MetricRecord :=
  submitMetricFn .counter name value tags hostname deviceName st

/-- A Python exception as `run` observes it: `str(e)` and the
`traceback.format_exc()` text. -/
structure PyExn where
  message : List Char
  trace : List Char
deriving DecidableEq, Repr

/-- One hexadecimal digit (lowercase), for the json unicode escapes. -/
def hexDigit (n : Nat) : Char :=
  if n < 10 then Char.ofNat (48 + n) else Char.ofNat (97 + n - 10)

/-- Four-digit hexadecimal rendering, for the json unicode escapes. -/
def hex4 (n : Nat) : List Char :=
  [hexDigit (n / 4096 % 16), hexDigit (n / 256 % 16),
   hexDigit (n / 16 % 16), hexDigit (n % 16)]

/-- Per-character escaping of `json.dumps` with its defaults (`ensure_ascii`
set): quote, backslash and the named control escapes, unicode escapes for
other control and non-ASCII characters (surrogate pairs above the BMP). -/
def jsonEscapeChar (c : Char) : List Char :=
  if c == '"' then ['\\', '"']
  else if c == '\\' then ['\\', '\\']
  else if c == '\n' then ['\\', 'n']
  else if c == '\r' then ['\\', 'r']
  else if c == '\t' then ['\\', 't']
  else if c == Char.ofNat 8 then ['\\', 'b']
  else if c == Char.ofNat 12 then ['\\', 'f']
  else if c.toNat < 32 || c.toNat > 127 then
    if c.toNat < 65536 then '\\' :: 'u' :: hex4 c.toNat
    else
      ('\\' :: 'u' :: hex4 (55296 + (c.toNat - 65536) / 1024)) ++
        ('\\' :: 'u' :: hex4 (56320 + (c.toNat - 65536) % 1024))
  else [c]

/-- `json.dumps` on one string: quoted, characters escaped. -/
def jsonDumpStr (s : List Char) : List Char :=
  '"' :: (s.foldr (fun c acc => jsonEscapeChar c ++ acc) ['"'])

/-- The string `run` returns on failure: `json.dumps` of the one-element
list holding the message/traceback mapping, with the default separators and
the source's key order. -/
def runFailurePayload (msg tb : List Char) : List Char :=
  "[\x7b".toList ++ jsonDumpStr "message".toList ++ ": ".toList ++
    jsonDumpStr msg ++ ", ".toList ++ jsonDumpStr "traceback".toList ++
    ": ".toList ++ jsonDumpStr tb ++ "\x7d]".toList

/-- The `IndexError` that `self.instances[0]` raises inside the `try` when
the instance list is empty, with CPython's message; the formatted traceback
text depends on the runtime and is modelled as a fixed rendering. -/
def indexErrorExn : PyExn :=
  { message := "list index out of range".toList,
    trace := "Traceback (most recent call last): IndexError: list index out of range".toList }

/-- Embeds `AgentCheck.run`: call the check on the first instance inside a
`try` (the subclass body is an arbitrary function that either returns or
raises, i.e. `Except`); success yields the empty string, any exception —
including the `IndexError` of an empty instance list — is caught and
serialized.  The `copy.deepcopy` isolation of the instance is invisible in
the pure model. -/
def runFn (check : PyVal → Except PyExn Unit) (instances : List PyVal) :
    List Char :=
  match instances.head? with
  | none => runFailurePayload indexErrorExn.message indexErrorExn.trace
  | some inst =>
    match check inst with
    | .ok _ => []
    | .error e => runFailurePayload e.message e.trace

/-- Dictionary lookup, `event.get(key)` / `event[key]` on the assoc-list
embedding of the event dict. -/
def pyGet (ev : List (List Char × PyVal)) (k : List Char) : Option PyVal :=
  (ev.find? (fun kv => kv.1 == k)).map (fun kv => kv.2)

/-- Dictionary assignment `event[key] = v` on the assoc-list embedding. -/
def pySet (ev : List (List Char × PyVal)) (k : List Char) (v : PyVal) :
    List (List Char × PyVal) :=
  match ev with
  | [] => [(k, v)]
  | (k', v') :: rest => if k' == k then (k, v) :: rest else (k', v') :: pySet rest k v

/-- `if event.get(key):` — the value, when present and truthy. -/
def truthyGet (ev : List (List Char × PyVal)) (k : List Char) : Option PyVal :=
  match pyGet ev k with
  | some v => if pyTruthy v then some v else none
  | none => none

/-- The `'tags'` key. -/
def tagsKey : List Char := "tags".toList

/-- The `'timestamp'` key. -/
def timestampKey : List Char := "timestamp".toList

/-- The `'aggregation_key'` key. -/
def aggregationKeyKey : List Char := "aggregation_key".toList

/-- Embeds the first loop of `AgentCheck.event`: every `unicode` field value
is re-assigned as its utf-8 encoding; on the first value whose encoding
raises `UnicodeError` the source logs and returns from `event` — `none`
models that early return. -/
def encodeEventFields : List (List Char × PyVal) → Option (List (List Char × PyVal))
  | [] => some []
  | (k, PyVal.uni s enc) :: rest =>
    match enc with
    | some b => (encodeEventFields rest).map (fun r => (k, PyVal.str b) :: r)
    | none => none
  | kv :: rest => (encodeEventFields rest).map (fun r => kv :: r)

/-- A `unicode` value whose utf-8 encoding raises. -/
def isFailingUnicode : PyVal → Bool
  | .uni _ none => true
  | _ => false

/-- Embeds `AgentCheck.event`: encode the unicode fields (returning without
submitting on an encoding failure), then normalize a truthy `tags` list,
coerce a truthy `timestamp` with `int`, coerce a truthy `aggregation_key`
with `str`, and submit the event to the aggregator (the state is the
aggregator's list of received events).  A `none` result models an uncaught
exception from the coercions (e.g. `int` of a non-numeric value). -/
def eventFn (ev : List (List Char × PyVal))
    (st : List (List (List Char × PyVal))) :
    Option (List (List (List Char × PyVal))) :=
  match encodeEventFields ev with
  | none => some st
  | some ev0 =>
    let tagsStep : Option (List (List Char × PyVal)) :=
      match truthyGet ev0 tagsKey with
      | none => some ev0
      | some (PyVal.list l) =>
        some (pySet ev0 tagsKey (PyVal.list ((normalizeTagsTypeList l).map PyVal.str)))
      | some (PyVal.str s) =>
        some (pySet ev0 tagsKey
          (PyVal.list ((normalizeTagsTypeList (s.map (fun c => PyVal.str [c]))).map PyVal.str)))
      | some _ => none
    match tagsStep with
    | none => none
    | some ev1 =>
      let tsStep : Option (List (List Char × PyVal)) :=
        match truthyGet ev1 timestampKey with
        | none => some ev1
        | some v => (pyInt v).map (fun n => pySet ev1 timestampKey (PyVal.int n))
      match tsStep with
      | none => none
      | some ev2 =>
        let aggStep : Option (List (List Char × PyVal)) :=
          match truthyGet ev2 aggregationKeyKey with
          | none => some ev2
          | some v => (pyStrOfVal v).map (fun s => pySet ev2 aggregationKeyKey (PyVal.str s))
        match aggStep with
        | none => none
        | some ev3 => some (st ++ [ev3])

/-! ## Pair (two-character substring) machinery -/

theorem hasPair_cons (a b x : Char) (l : List Char) :
    hasPair a b (x :: l) = ((x == a && l.head? == some b) || hasPair a b l) := by
  cases l <;> simp [hasPair]

theorem hasPair_tail {a b x : Char} {l : List Char}
    (h : hasPair a b (x :: l) = false) : hasPair a b l = false := by
  rw [hasPair_cons] at h
  exact (Bool.or_eq_false_iff.mp h).2

theorem hasPair_cons_of {a b x : Char} {l : List Char}
    (h₁ : ¬(x = a ∧ l.head? = some b)) (h₂ : hasPair a b l = false) :
    hasPair a b (x :: l) = false := by
  rw [hasPair_cons, h₂, Bool.or_false]
  rcases l with _ | ⟨y, t⟩
  · simp
  · simp only [List.head?_cons, Option.some.injEq] at h₁ ⊢
    rcases Decidable.em (x = a) with hx | hx
    · have hy : y ≠ b := fun hy => h₁ ⟨hx, hy⟩
      simp [hx, hy]
    · simp [hx]

theorem hasPair_cons_elim {a b x : Char} {l : List Char}
    (h : hasPair a b (x :: l) = false) : ¬(x = a ∧ l.head? = some b) := by
  rw [hasPair_cons] at h
  rcases Bool.or_eq_false_iff.mp h with ⟨h₁, -⟩
  rintro ⟨rfl, hh⟩
  simp [hh] at h₁

theorem hasPair_eq_true_iff (a b : Char) (l : List Char) :
    hasPair a b l = true ↔ [a, b] <:+: l := by
  induction l with
  | nil =>
    simp only [hasPair]
    constructor
    · intro h; cases h
    · intro h
      have := h.length_le
      simp at this
  | cons x t ih =>
    rw [hasPair_cons]
    constructor
    · intro h
      rcases Bool.or_eq_true_iff.mp h with h | h
      · rcases Bool.and_eq_true_iff.mp h with ⟨hx, hh⟩
        rcases t with _ | ⟨y, t'⟩
        · simp at hh
        · simp only [List.head?_cons] at hh
          have hx' : x = a := by simpa using hx
          have hy' : y = b := by simpa using hh
          subst hx'; subst hy'
          exact ⟨[], t', rfl⟩
      · exact List.infix_cons (ih.mp h)
    · intro h
      rcases List.infix_cons_iff.mp h with h | h
      · rcases List.cons_prefix_cons.mp h with ⟨rfl, h2⟩
        rcases t with _ | ⟨y, t'⟩
        · have := h2.length_le
          simp at this
        · rcases List.cons_prefix_cons.mp h2 with ⟨rfl, -⟩
          simp
      · rw [ih.mpr h, Bool.or_true]

theorem not_infix_of_hasPair_eq_false {a b : Char} {l : List Char}
    (h : hasPair a b l = false) : ¬ [a, b] <:+: l := by
  intro hc
  rw [(hasPair_eq_true_iff a b l).mpr hc] at h
  cases h

/-! ## The double-underscore collapse -/

theorem collapseU_cons_cons (c₁ c₂ : Char) (rest : List Char) :
    collapseU (c₁ :: c₂ :: rest) =
      if c₁ = '_' ∧ c₂ = '_' then collapseU (c₂ :: rest)
      else c₁ :: collapseU (c₂ :: rest) := by
  by_cases h : c₁ = '_' ∧ c₂ = '_'
  · rcases h with ⟨rfl, rfl⟩
    simp [collapseU]
  · have hb : (c₁ == '_' && c₂ == '_') = false := by
      rcases Decidable.em (c₁ = '_') with rfl | hc
      · simp only [beq_self_eq_true, Bool.true_and, beq_eq_false_iff_ne, ne_eq]
        exact fun hc2 => h ⟨rfl, hc2⟩
      · simp [hc]
    simp [collapseU, hb, h]

theorem collapseU_head? (l : List Char) : (collapseU l).head? = l.head? := by
  induction l with
  | nil => rfl
  | cons c t ih =>
    cases t with
    | nil => rfl
    | cons c₂ rest =>
      rw [collapseU_cons_cons]
      by_cases h : c = '_' ∧ c₂ = '_'
      · rcases h with ⟨rfl, rfl⟩
        rw [if_pos ⟨rfl, rfl⟩, ih]
        rfl
      · rw [if_neg h]
        simp

theorem collapseU_noUU (l : List Char) :
    hasPair '_' '_' (collapseU l) = false := by
  induction l with
  | nil => rfl
  | cons c t ih =>
    cases t with
    | nil => rfl
    | cons c₂ rest =>
      rw [collapseU_cons_cons]
      by_cases h : c = '_' ∧ c₂ = '_'
      · rw [if_pos h]
        exact ih
      · rw [if_neg h]
        refine hasPair_cons_of ?_ ih
        rintro ⟨rfl, hh⟩
        rw [collapseU_head?] at hh
        simp only [List.head?_cons, Option.some.injEq] at hh
        exact h ⟨rfl, hh⟩

theorem collapseU_id {l : List Char} (h : hasPair '_' '_' l = false) :
    collapseU l = l := by
  induction l with
  | nil => rfl
  | cons c t ih =>
    cases t with
    | nil => rfl
    | cons c₂ rest =>
      have hne : ¬(c = '_' ∧ c₂ = '_') := by
        have hx := hasPair_cons_elim h
        simpa using hx
      rw [collapseU_cons_cons, if_neg hne, ih (hasPair_tail h)]

theorem collapseU_mem {c : Char} {l : List Char} (h : c ∈ collapseU l) :
    c ∈ l := by
  induction l with
  | nil => simpa [collapseU] using h
  | cons x t ih =>
    cases t with
    | nil => simpa [collapseU] using h
    | cons c₂ rest =>
      rw [collapseU_cons_cons] at h
      by_cases hb : x = '_' ∧ c₂ = '_'
      · rw [if_pos hb] at h
        exact List.mem_cons_of_mem _ (ih h)
      · rw [if_neg hb] at h
        rcases List.mem_cons.mp h with rfl | h
        · exact List.mem_cons_self _ _
        · exact List.mem_cons_of_mem _ (ih h)

theorem collapseU_allU {l : List Char} (hall : ∀ c ∈ l, c = '_')
    (hne : l ≠ []) : collapseU l = ['_'] := by
  induction l with
  | nil => exact absurd rfl hne
  | cons x t ih =>
    cases t with
    | nil =>
      have hx : x = '_' := hall x (List.mem_cons_self _ _)
      simp [collapseU, hx]
    | cons c₂ rest =>
      have hx : x = '_' := hall x (by simp)
      have hc₂ : c₂ = '_' := hall c₂ (by simp)
      rw [collapseU_cons_cons, if_pos ⟨hx, hc₂⟩]
      exact ih (fun c hc => hall c (List.mem_cons_of_mem _ hc)) (by simp)

/-! ## Auxiliary facts about heads, last elements and pairs -/

theorem getLast?_cons_ne_nil {x : Char} {l : List Char} (h : l ≠ []) :
    (x :: l).getLast? = l.getLast? := by
  cases l with
  | nil => exact absurd rfl h
  | cons y t => exact List.getLast?_cons_cons

theorem hasPair_cons_of_tail {a b x : Char} {l : List Char}
    (h : hasPair a b l = true) : hasPair a b (x :: l) = true := by
  rw [hasPair_cons, h, Bool.or_true]

theorem hasPair_dropLast {a b : Char} {l : List Char}
    (h : hasPair a b l = false) : hasPair a b l.dropLast = false := by
  induction l with
  | nil => simpa using h
  | cons x t ih =>
    cases t with
    | nil => simp [List.dropLast_single, hasPair]
    | cons y t₂ =>
      rw [List.dropLast_cons₂]
      refine hasPair_cons_of ?_ (ih (hasPair_tail h))
      rintro ⟨rfl, hh⟩
      cases t₂ with
      | nil => simp [List.dropLast_single] at hh
      | cons z t₃ =>
        rw [List.dropLast_cons₂] at hh
        simp only [List.head?_cons, Option.some.injEq] at hh
        exact (hasPair_cons_elim h) ⟨rfl, by simp [hh]⟩

theorem head?_dropLast_some {c : Char} {l : List Char}
    (h : l.dropLast.head? = some c) : l.head? = some c := by
  rw [List.head?_dropLast] at h
  by_cases hl : 1 < l.length
  · rwa [if_pos hl] at h
  · rw [if_neg hl] at h
    cases h

theorem getLast?_dropLast_pair {a b : Char} {l : List Char}
    (hb : l.getLast? = some b) (ha : l.dropLast.getLast? = some a) :
    hasPair a b l = true := by
  induction l with
  | nil => simp at hb
  | cons x t ih =>
    cases t with
    | nil => simp [List.dropLast_single] at ha
    | cons y t₂ =>
      cases t₂ with
      | nil =>
        rw [List.getLast?_cons_cons] at hb
        rw [List.dropLast_cons₂, List.dropLast_single] at ha
        simp only [List.getLast?_singleton, Option.some.injEq] at hb ha
        subst hb; subst ha
        simp [hasPair]
      | cons z t₃ =>
        rw [List.getLast?_cons_cons] at hb
        rw [List.dropLast_cons₂,
          getLast?_cons_ne_nil (by rw [List.dropLast_cons₂]; simp)] at ha
        exact hasPair_cons_of_tail (ih hb ha)

/-! ## The single leading/trailing underscore strips -/

theorem stripLeading_noPair {a b : Char} {l : List Char}
    (h : hasPair a b l = false) : hasPair a b (stripLeadingU l) = false := by
  by_cases hc : l.head? = some '_'
  · simp only [stripLeadingU]
    rw [if_pos hc]
    cases l with
    | nil => simpa using h
    | cons x t => exact hasPair_tail h
  · simp only [stripLeadingU]
    rw [if_neg hc]
    exact h

theorem stripLeading_head {l : List Char} (h : hasPair '_' '_' l = false) :
    (stripLeadingU l).head? ≠ some '_' := by
  by_cases hc : l.head? = some '_'
  · simp only [stripLeadingU]
    rw [if_pos hc]
    cases l with
    | nil => simp
    | cons x t =>
      intro hh
      simp only [List.head?_cons, Option.some.injEq] at hc
      exact (hasPair_cons_elim h) ⟨hc, by simpa using hh⟩
  · simp only [stripLeadingU]
    rw [if_neg hc]
    exact hc

theorem stripLeading_id {l : List Char} (h : l.head? ≠ some '_') :
    stripLeadingU l = l := by
  simp only [stripLeadingU]
  rw [if_neg h]

theorem stripLeading_mem {c : Char} {l : List Char}
    (h : c ∈ stripLeadingU l) : c ∈ l := by
  by_cases hc : l.head? = some '_'
  · simp only [stripLeadingU] at h
    rw [if_pos hc] at h
    cases l with
    | nil => simpa using h
    | cons x t => exact List.mem_cons_of_mem _ h
  · simp only [stripLeadingU] at h
    rwa [if_neg hc] at h

theorem stripTrailing_noPair {a b : Char} {l : List Char}
    (h : hasPair a b l = false) : hasPair a b (stripTrailingU l) = false := by
  by_cases hc : l.getLast? = some '_'
  · simp only [stripTrailingU]
    rw [if_pos hc]
    exact hasPair_dropLast h
  · simp only [stripTrailingU]
    rw [if_neg hc]
    exact h

theorem stripTrailing_head {l : List Char} (h : l.head? ≠ some '_') :
    (stripTrailingU l).head? ≠ some '_' := by
  by_cases hc : l.getLast? = some '_'
  · simp only [stripTrailingU]
    rw [if_pos hc]
    intro hh
    exact h (head?_dropLast_some hh)
  · simp only [stripTrailingU]
    rw [if_neg hc]
    exact h

theorem stripTrailing_getLast {l : List Char} (h : hasPair '_' '_' l = false) :
    (stripTrailingU l).getLast? ≠ some '_' := by
  by_cases hc : l.getLast? = some '_'
  · simp only [stripTrailingU]
    rw [if_pos hc]
    intro ha
    rw [getLast?_dropLast_pair hc ha] at h
    cases h
  · simp only [stripTrailingU]
    rw [if_neg hc]
    exact hc

theorem stripTrailing_id {l : List Char} (h : l.getLast? ≠ some '_') :
    stripTrailingU l = l := by
  simp only [stripTrailingU]
  rw [if_neg h]

theorem stripTrailing_mem {c : Char} {l : List Char}
    (h : c ∈ stripTrailingU l) : c ∈ l := by
  by_cases hc : l.getLast? = some '_'
  · simp only [stripTrailingU] at h
    rw [if_pos hc] at h
    exact List.mem_of_mem_dropLast h
  · simp only [stripTrailingU] at h
    rwa [if_neg hc] at h

/-! ## The dot-underscore substitution -/

theorem subDU_cons_cons (x y : Char) (rest : List Char) :
    subDU (x :: y :: rest) =
      if x = '.' ∧ y = '_' then '.' :: subDU rest
      else x :: subDU (y :: rest) := by
  by_cases h : x = '.' ∧ y = '_'
  · rcases h with ⟨rfl, rfl⟩
    simp [subDU]
  · have hb : (x == '.' && y == '_') = false := by
      rcases Decidable.em (x = '.') with rfl | hc
      · simp only [beq_self_eq_true, Bool.true_and, beq_eq_false_iff_ne, ne_eq]
        exact fun hc2 => h ⟨rfl, hc2⟩
      · simp [hc]
    simp [subDU, hb, h]

theorem subDU_head? (l : List Char) : (subDU l).head? = l.head? := by
  cases l with
  | nil => rfl
  | cons x t =>
    cases t with
    | nil => rfl
    | cons y rest =>
      rw [subDU_cons_cons]
      by_cases h : x = '.' ∧ y = '_'
      · rw [if_pos h]
        simp [h.1]
      · rw [if_neg h]
        simp

theorem subDU_ne_nil {l : List Char} (h : l ≠ []) : subDU l ≠ [] := by
  cases l with
  | nil => exact absurd rfl h
  | cons x t =>
    intro heq
    have hh := subDU_head? (x :: t)
    rw [heq] at hh
    simp at hh

theorem subDU_noUU : ∀ l : List Char, hasPair '_' '_' l = false →
    hasPair '_' '_' (subDU l) = false := by
  intro l
  induction l using subDU.induct with
  | case1 =>
    intro h
    exact h
  | case2 c =>
    intro h
    exact h
  | case3 x y rest hb ih =>
    intro h
    have hxy : x = '.' ∧ y = '_' := by
      rcases Bool.and_eq_true_iff.mp hb with ⟨h1, h2⟩
      exact ⟨by simpa using h1, by simpa using h2⟩
    rw [subDU_cons_cons, if_pos hxy]
    refine hasPair_cons_of (by simp) (ih (hasPair_tail (hasPair_tail h)))
  | case4 x y rest hb ih =>
    intro h
    have hxy : ¬(x = '.' ∧ y = '_') := by
      rintro ⟨rfl, rfl⟩
      simp at hb
    rw [subDU_cons_cons, if_neg hxy]
    refine hasPair_cons_of ?_ (ih (hasPair_tail h))
    rintro ⟨rfl, hh⟩
    rw [subDU_head?] at hh
    simp only [List.head?_cons, Option.some.injEq] at hh
    exact (hasPair_cons_elim h) ⟨rfl, by simp [hh]⟩

theorem subDU_noDU : ∀ l : List Char, hasPair '_' '_' l = false →
    hasPair '.' '_' (subDU l) = false := by
  intro l
  induction l using subDU.induct with
  | case1 =>
    intro _
    rfl
  | case2 c =>
    intro _
    rfl
  | case3 x y rest hb ih =>
    intro h
    have hxy : x = '.' ∧ y = '_' := by
      rcases Bool.and_eq_true_iff.mp hb with ⟨h1, h2⟩
      exact ⟨by simpa using h1, by simpa using h2⟩
    rw [subDU_cons_cons, if_pos hxy]
    refine hasPair_cons_of ?_ (ih (hasPair_tail (hasPair_tail h)))
    rintro ⟨-, hh⟩
    rw [subDU_head?] at hh
    have h2 := hasPair_cons_elim (hasPair_tail h)
    exact h2 ⟨hxy.2, hh⟩
  | case4 x y rest hb ih =>
    intro h
    have hxy : ¬(x = '.' ∧ y = '_') := by
      rintro ⟨rfl, rfl⟩
      simp at hb
    rw [subDU_cons_cons, if_neg hxy]
    refine hasPair_cons_of ?_ (ih (hasPair_tail h))
    rintro ⟨rfl, hh⟩
    rw [subDU_head?] at hh
    simp only [List.head?_cons, Option.some.injEq] at hh
    exact hxy ⟨rfl, hh⟩

theorem subDU_getLast : ∀ l : List Char, l.getLast? ≠ some '_' →
    (subDU l).getLast? ≠ some '_' := by
  intro l
  induction l using subDU.induct with
  | case1 =>
    intro h
    exact h
  | case2 c =>
    intro h
    exact h
  | case3 x y rest hb ih =>
    intro h
    have hxy : x = '.' ∧ y = '_' := by
      rcases Bool.and_eq_true_iff.mp hb with ⟨h1, h2⟩
      exact ⟨by simpa using h1, by simpa using h2⟩
    rw [subDU_cons_cons, if_pos hxy]
    cases rest with
    | nil => decide
    | cons r rs =>
      rw [getLast?_cons_ne_nil (subDU_ne_nil (by simp))]
      refine ih ?_
      rw [List.getLast?_cons_cons, List.getLast?_cons_cons] at h
      exact h
  | case4 x y rest hb ih =>
    intro h
    have hxy : ¬(x = '.' ∧ y = '_') := by
      rintro ⟨rfl, rfl⟩
      simp at hb
    rw [subDU_cons_cons, if_neg hxy]
    rw [getLast?_cons_ne_nil (subDU_ne_nil (by simp))]
    refine ih ?_
    rw [List.getLast?_cons_cons] at h
    exact h

theorem subDU_id : ∀ l : List Char, hasPair '.' '_' l = false →
    subDU l = l := by
  intro l
  induction l using subDU.induct with
  | case1 =>
    intro _
    rfl
  | case2 c =>
    intro _
    rfl
  | case3 x y rest hb ih =>
    intro h
    have hxy : x = '.' ∧ y = '_' := by
      rcases Bool.and_eq_true_iff.mp hb with ⟨h1, h2⟩
      exact ⟨by simpa using h1, by simpa using h2⟩
    exact absurd ⟨hxy.1, by simp [hxy.2]⟩ (hasPair_cons_elim h)
  | case4 x y rest hb ih =>
    intro h
    have hxy : ¬(x = '.' ∧ y = '_') := by
      rintro ⟨rfl, rfl⟩
      simp at hb
    rw [subDU_cons_cons, if_neg hxy, ih (hasPair_tail h)]

theorem subDU_mem : ∀ {c : Char} {l : List Char}, c ∈ subDU l →
    c ∈ l ∨ c = '.' := by
  intro c l
  induction l using subDU.induct with
  | case1 =>
    intro h
    exact .inl h
  | case2 c' =>
    intro h
    exact .inl h
  | case3 x y rest hb ih =>
    intro h
    have hxy : x = '.' ∧ y = '_' := by
      rcases Bool.and_eq_true_iff.mp hb with ⟨h1, h2⟩
      exact ⟨by simpa using h1, by simpa using h2⟩
    rw [subDU_cons_cons, if_pos hxy] at h
    rcases List.mem_cons.mp h with rfl | h
    · exact .inr rfl
    · rcases ih h with h | h
      · exact .inl (List.mem_cons_of_mem _ (List.mem_cons_of_mem _ h))
      · exact .inr h
  | case4 x y rest hb ih =>
    intro h
    have hxy : ¬(x = '.' ∧ y = '_') := by
      rintro ⟨rfl, rfl⟩
      simp at hb
    rw [subDU_cons_cons, if_neg hxy] at h
    rcases List.mem_cons.mp h with rfl | h
    · exact .inl (List.mem_cons_self _ _)
    · rcases ih h with h | h
      · exact .inl (List.mem_cons_of_mem _ h)
      · exact .inr h

/-! ## The underscore-dot substitution -/

theorem subUD_cons_cons (x y : Char) (rest : List Char) :
    subUD (x :: y :: rest) =
      if x = '_' ∧ y = '.' then '.' :: subUD rest
      else x :: subUD (y :: rest) := by
  by_cases h : x = '_' ∧ y = '.'
  · rcases h with ⟨rfl, rfl⟩
    simp [subUD]
  · have hb : (x == '_' && y == '.') = false := by
      rcases Decidable.em (x = '_') with rfl | hc
      · simp only [beq_self_eq_true, Bool.true_and, beq_eq_false_iff_ne, ne_eq]
        exact fun hc2 => h ⟨rfl, hc2⟩
      · simp [hc]
    simp [subUD, hb, h]

theorem subUD_head?_cases (l : List Char) :
    (subUD l).head? = l.head? ∨
      ((subUD l).head? = some '.' ∧ l.head? = some '_') := by
  cases l with
  | nil => exact .inl rfl
  | cons x t =>
    cases t with
    | nil => exact .inl rfl
    | cons y rest =>
      rw [subUD_cons_cons]
      by_cases h : x = '_' ∧ y = '.'
      · rw [if_pos h]
        exact .inr ⟨by simp, by simp [h.1]⟩
      · rw [if_neg h]
        exact .inl (by simp)

theorem subUD_ne_nil {l : List Char} (h : l ≠ []) : subUD l ≠ [] := by
  cases l with
  | nil => exact absurd rfl h
  | cons x t =>
    intro heq
    rcases subUD_head?_cases (x :: t) with hh | ⟨hh, -⟩ <;>
      rw [heq] at hh <;> simp at hh

theorem subUD_noUU : ∀ l : List Char, hasPair '_' '_' l = false →
    hasPair '_' '_' (subUD l) = false := by
  intro l
  induction l using subUD.induct with
  | case1 =>
    intro h
    exact h
  | case2 c =>
    intro h
    exact h
  | case3 x y rest hb ih =>
    intro h
    have hxy : x = '_' ∧ y = '.' := by
      rcases Bool.and_eq_true_iff.mp hb with ⟨h1, h2⟩
      exact ⟨by simpa using h1, by simpa using h2⟩
    rw [subUD_cons_cons, if_pos hxy]
    exact hasPair_cons_of (by simp) (ih (hasPair_tail (hasPair_tail h)))
  | case4 x y rest hb ih =>
    intro h
    have hxy : ¬(x = '_' ∧ y = '.') := by
      rintro ⟨rfl, rfl⟩
      simp at hb
    rw [subUD_cons_cons, if_neg hxy]
    refine hasPair_cons_of ?_ (ih (hasPair_tail h))
    rintro ⟨rfl, hh⟩
    rcases subUD_head?_cases (y :: rest) with hc | ⟨hc, -⟩
    · rw [hc] at hh
      simp only [List.head?_cons, Option.some.injEq] at hh
      exact (hasPair_cons_elim h) ⟨rfl, by simp [hh]⟩
    · rw [hc] at hh
      simp at hh

theorem subUD_noDU : ∀ l : List Char, hasPair '.' '_' l = false →
    hasPair '_' '_' l = false → hasPair '.' '_' (subUD l) = false := by
  intro l
  induction l using subUD.induct with
  | case1 =>
    intro _ _
    rfl
  | case2 c =>
    intro _ _
    rfl
  | case3 x y rest hb ih =>
    intro h4 h1
    have hxy : x = '_' ∧ y = '.' := by
      rcases Bool.and_eq_true_iff.mp hb with ⟨hb1, hb2⟩
      exact ⟨by simpa using hb1, by simpa using hb2⟩
    rw [subUD_cons_cons, if_pos hxy]
    refine hasPair_cons_of ?_
      (ih (hasPair_tail (hasPair_tail h4)) (hasPair_tail (hasPair_tail h1)))
    rintro ⟨-, hh⟩
    rcases subUD_head?_cases rest with hc | ⟨-, hc⟩
    · rw [hc] at hh
      exact (hasPair_cons_elim (hasPair_tail h4)) ⟨hxy.2, hh⟩
    · exact (hasPair_cons_elim (hasPair_tail h4)) ⟨hxy.2, hc⟩
  | case4 x y rest hb ih =>
    intro h4 h1
    have hxy : ¬(x = '_' ∧ y = '.') := by
      rintro ⟨rfl, rfl⟩
      simp at hb
    rw [subUD_cons_cons, if_neg hxy]
    refine hasPair_cons_of ?_ (ih (hasPair_tail h4) (hasPair_tail h1))
    rintro ⟨rfl, hh⟩
    rcases subUD_head?_cases (y :: rest) with hc | ⟨hc, -⟩
    · rw [hc] at hh
      simp only [List.head?_cons, Option.some.injEq] at hh
      exact (hasPair_cons_elim h4) ⟨rfl, by simp [hh]⟩
    · rw [hc] at hh
      simp at hh

theorem subUD_noUD : ∀ l : List Char, hasPair '_' '_' l = false →
    hasPair '.' '_' l = false → hasPair '_' '.' (subUD l) = false := by
  intro l
  induction l using subUD.induct with
  | case1 =>
    intro _ _
    rfl
  | case2 c =>
    intro _ _
    rfl
  | case3 x y rest hb ih =>
    intro h1 h4
    have hxy : x = '_' ∧ y = '.' := by
      rcases Bool.and_eq_true_iff.mp hb with ⟨hb1, hb2⟩
      exact ⟨by simpa using hb1, by simpa using hb2⟩
    rw [subUD_cons_cons, if_pos hxy]
    exact hasPair_cons_of (by simp)
      (ih (hasPair_tail (hasPair_tail h1)) (hasPair_tail (hasPair_tail h4)))
  | case4 x y rest hb ih =>
    intro h1 h4
    have hxy : ¬(x = '_' ∧ y = '.') := by
      rintro ⟨rfl, rfl⟩
      simp at hb
    rw [subUD_cons_cons, if_neg hxy]
    refine hasPair_cons_of ?_ (ih (hasPair_tail h1) (hasPair_tail h4))
    rintro ⟨rfl, hh⟩
    rcases subUD_head?_cases (y :: rest) with hc | ⟨-, hc⟩
    · rw [hc] at hh
      simp only [List.head?_cons, Option.some.injEq] at hh
      exact hxy ⟨rfl, hh⟩
    · simp only [List.head?_cons, Option.some.injEq] at hc
      exact (hasPair_cons_elim h1) ⟨rfl, by simp [hc]⟩

theorem subUD_head {l : List Char} (h : l.head? ≠ some '_') :
    (subUD l).head? ≠ some '_' := by
  rcases subUD_head?_cases l with hc | ⟨hc, -⟩
  · rwa [hc]
  · rw [hc]
    decide

theorem subUD_getLast : ∀ l : List Char, l.getLast? ≠ some '_' →
    (subUD l).getLast? ≠ some '_' := by
  intro l
  induction l using subUD.induct with
  | case1 =>
    intro h
    exact h
  | case2 c =>
    intro h
    exact h
  | case3 x y rest hb ih =>
    intro h
    have hxy : x = '_' ∧ y = '.' := by
      rcases Bool.and_eq_true_iff.mp hb with ⟨hb1, hb2⟩
      exact ⟨by simpa using hb1, by simpa using hb2⟩
    rw [subUD_cons_cons, if_pos hxy]
    cases rest with
    | nil => decide
    | cons r rs =>
      rw [getLast?_cons_ne_nil (subUD_ne_nil (by simp))]
      refine ih ?_
      rw [List.getLast?_cons_cons, List.getLast?_cons_cons] at h
      exact h
  | case4 x y rest hb ih =>
    intro h
    have hxy : ¬(x = '_' ∧ y = '.') := by
      rintro ⟨rfl, rfl⟩
      simp at hb
    rw [subUD_cons_cons, if_neg hxy]
    rw [getLast?_cons_ne_nil (subUD_ne_nil (by simp))]
    refine ih ?_
    rw [List.getLast?_cons_cons] at h
    exact h

theorem subUD_id : ∀ l : List Char, hasPair '_' '.' l = false →
    subUD l = l := by
  intro l
  induction l using subUD.induct with
  | case1 =>
    intro _
    rfl
  | case2 c =>
    intro _
    rfl
  | case3 x y rest hb ih =>
    intro h
    have hxy : x = '_' ∧ y = '.' := by
      rcases Bool.and_eq_true_iff.mp hb with ⟨hb1, hb2⟩
      exact ⟨by simpa using hb1, by simpa using hb2⟩
    exact absurd ⟨hxy.1, by simp [hxy.2]⟩ (hasPair_cons_elim h)
  | case4 x y rest hb ih =>
    intro h
    have hxy : ¬(x = '_' ∧ y = '.') := by
      rintro ⟨rfl, rfl⟩
      simp at hb
    rw [subUD_cons_cons, if_neg hxy, ih (hasPair_tail h)]

theorem subUD_mem : ∀ {c : Char} {l : List Char}, c ∈ subUD l →
    c ∈ l ∨ c = '.' := by
  intro c l
  induction l using subUD.induct with
  | case1 =>
    intro h
    exact .inl h
  | case2 c' =>
    intro h
    exact .inl h
  | case3 x y rest hb ih =>
    intro h
    have hxy : x = '_' ∧ y = '.' := by
      rcases Bool.and_eq_true_iff.mp hb with ⟨hb1, hb2⟩
      exact ⟨by simpa using hb1, by simpa using hb2⟩
    rw [subUD_cons_cons, if_pos hxy] at h
    rcases List.mem_cons.mp h with rfl | h
    · exact .inr rfl
    · rcases ih h with h | h
      · exact .inl (List.mem_cons_of_mem _ (List.mem_cons_of_mem _ h))
      · exact .inr h
  | case4 x y rest hb ih =>
    intro h
    have hxy : ¬(x = '_' ∧ y = '.') := by
      rintro ⟨rfl, rfl⟩
      simp at hb
    rw [subUD_cons_cons, if_neg hxy] at h
    rcases List.mem_cons.mp h with rfl | h
    · exact .inl (List.mem_cons_self _ _)
    · rcases ih h with h | h
      · exact .inl (List.mem_cons_of_mem _ h)
      · exact .inr h

/-! ## The combined cleanup pipeline -/

theorem nameCleanup_wellformed (l : List Char) :
    hasPair '_' '_' (nameCleanup l) = false ∧
    (nameCleanup l).head? ≠ some '_' ∧
    (nameCleanup l).getLast? ≠ some '_' ∧
    hasPair '.' '_' (nameCleanup l) = false ∧
    hasPair '_' '.' (nameCleanup l) = false := by
  unfold nameCleanup
  have p1₀ : hasPair '_' '_' (collapseU l) = false := collapseU_noUU l
  have p1₁ := stripLeading_noPair p1₀
  have p2₁ := stripLeading_head p1₀
  have p1₂ := stripTrailing_noPair p1₁
  have p2₂ := stripTrailing_head p2₁
  have p3₂ := stripTrailing_getLast p1₁
  have p1₃ := subDU_noUU _ p1₂
  have p2₃ : (subDU (stripTrailingU (stripLeadingU (collapseU l)))).head? ≠
      some '_' := by
    rw [subDU_head?]
    exact p2₂
  have p3₃ := subDU_getLast _ p3₂
  have p4₃ := subDU_noDU _ p1₂
  exact ⟨subUD_noUU _ p1₃, subUD_head p2₃, subUD_getLast _ p3₃,
    subUD_noDU _ p4₃ p1₃, subUD_noUD _ p1₃ p4₃⟩

theorem nameCleanup_id {l : List Char}
    (h1 : hasPair '_' '_' l = false) (h2 : l.head? ≠ some '_')
    (h3 : l.getLast? ≠ some '_') (h4 : hasPair '.' '_' l = false)
    (h5 : hasPair '_' '.' l = false) : nameCleanup l = l := by
  unfold nameCleanup
  rw [collapseU_id h1, stripLeading_id h2, stripTrailing_id h3,
    subDU_id l h4, subUD_id l h5]

theorem nameCleanup_mem {c : Char} {l : List Char} (h : c ∈ nameCleanup l) :
    c ∈ l ∨ c = '.' := by
  unfold nameCleanup at h
  rcases subUD_mem h with h | rfl
  · rcases subDU_mem h with h | rfl
    · exact .inl (collapseU_mem (stripLeading_mem (stripTrailing_mem h)))
    · exact .inr rfl
  · exact .inr rfl

/-! ## The character class of the false branch -/

theorem falseClassChar_of_mem_charClassSub {c : Char} {l : List Char}
    (h : c ∈ charClassSub l) : falseClassChar c = false := by
  rcases List.mem_map.mp h with ⟨d, -, rfl⟩
  by_cases hd : falseClassChar d
  · rw [if_pos hd]
    decide
  · rw [if_neg hd]
    exact Bool.eq_false_iff.mpr hd

theorem charClassSub_id {l : List Char}
    (h : ∀ c ∈ l, falseClassChar c = false) : charClassSub l = l := by
  unfold charClassSub
  rw [List.map_congr_left (g := id) (fun c hc => by simp [h c hc])]
  exact List.map_id l

theorem normalize_none_eq (metric : List Char) (fixCase : Bool) :
    normalize metric none fixCase =
      nameCleanup (if fixCase then convertToUnderscoreSeparated metric
        else charClassSub metric) := by
  cases fixCase <;> rfl

theorem normalize_some_true_eq (metric p : List Char) :
    normalize metric (some p) true =
      convertToUnderscoreSeparated p ++
        '.' :: nameCleanup (convertToUnderscoreSeparated metric) := rfl

/-! ## Claim theorems for the normalize pipeline -/

/-- C1, counterexample: with the raw prefix consisting of one underscore and
`fix_case=False`, `normalize` returns a string that starts with an
underscore and contains the underscore-dot substring, so the claimed
guarantees fail for prefixed names. -/
theorem normalize_prefix_breaks_guarantees :
    ['_', '.'] <:+: normalize ['a'] (some ['_']) false ∧
    (normalize ['a'] (some ['_']) false).head? = some '_' := by decide

/-- C1 (amended to the prefixless call): for every metric string and both
values of `fix_case`, `normalize` with no prefix returns a string with no
two consecutive underscores, no leading or trailing underscore, and no
dot-underscore or underscore-dot substring. -/
theorem normalize_no_prefix_wellformed (metric : List Char) (fixCase : Bool) :
    ¬ ['_', '_'] <:+: normalize metric none fixCase ∧
    (normalize metric none fixCase).head? ≠ some '_' ∧
    (normalize metric none fixCase).getLast? ≠ some '_' ∧
    ¬ ['.', '_'] <:+: normalize metric none fixCase ∧
    ¬ ['_', '.'] <:+: normalize metric none fixCase := by
  rw [normalize_none_eq]
  obtain ⟨q1, q2, q3, q4, q5⟩ := nameCleanup_wellformed
    (if fixCase then convertToUnderscoreSeparated metric else charClassSub metric)
  exact ⟨not_infix_of_hasPair_eq_false q1, q2, q3,
    not_infix_of_hasPair_eq_false q4, not_infix_of_hasPair_eq_false q5⟩

/-- C6: the `fix_case=False` branch of normalization is idempotent: applying
`normalize` with no prefix twice equals applying it once, for every input
string. -/
theorem normalize_false_idempotent (s : List Char) :
    normalize (normalize s none false) none false = normalize s none false := by
  have hrw : ∀ t : List Char,
      normalize t none false = nameCleanup (charClassSub t) := by
    intro t
    rfl
  rw [hrw, hrw]
  have hchars : ∀ c ∈ nameCleanup (charClassSub s), falseClassChar c = false := by
    intro c hc
    rcases nameCleanup_mem hc with h | rfl
    · exact falseClassChar_of_mem_charClassSub h
    · decide
  rw [charClassSub_id hchars]
  obtain ⟨q1, q2, q3, q4, q5⟩ := nameCleanup_wellformed (charClassSub s)
  exact nameCleanup_id q1 q2 q3 q4 q5

/-- C7: with `fix_case=True` and a prefix, `normalize` passes the prefix
through `convert_to_underscore_separated` only — not through the cleanup
substitutions applied to the name — and returns prefix ++ dot ++ name; in
particular the spec example `normalize("FooBar", "prefix", True)` yields the
dotted lowercase result. -/
theorem normalize_prefix_fix_case :
    (∀ metric p : List Char, normalize metric (some p) true =
        convertToUnderscoreSeparated p ++ '.' :: normalize metric none true) ∧
    normalize "FooBar".toList (some "prefix".toList) true =
      "prefix.foo_bar".toList := by
  constructor
  · intro metric p
    rfl
  · decide

/-! ## Identity of the CamelCase regexes without uppercase letters -/

theorem digit_not_upper {c : Char} (h : isAsciiDigit c = true) :
    isAsciiUpper c = false := by
  simp only [isAsciiDigit, Bool.and_eq_true, decide_eq_true_eq] at h
  simp only [isAsciiUpper]
  have : ¬(65 ≤ c.toNat ∧ c.toNat ≤ 90) := by omega
  simp only [Bool.and_eq_false_iff, decide_eq_false_iff_not]
  omega

theorem alpha_false_not_upper {c : Char} (h : isAsciiAlpha c = false) :
    isAsciiUpper c = false := by
  simp only [isAsciiAlpha, Bool.or_eq_false_iff] at h
  exact h.1

theorem firstCapGo_id_of_no_upper : ∀ (fuel : Nat) (l : List Char),
    (∀ c ∈ l, isAsciiUpper c = false) → firstCapGo fuel l = l := by
  intro fuel
  induction fuel with
  | zero =>
    intro l _
    rfl
  | succ n ih =>
    intro l h
    cases l with
    | nil => rfl
    | cons x t =>
      cases t with
      | nil => rfl
      | cons u t₂ =>
        cases t₂ with
        | nil => rfl
        | cons l' rest =>
          have hu : isAsciiUpper u = false := h u (by simp)
          have hcond : ¬(x ≠ '\n' ∧ isAsciiUpper u ∧ isAsciiLower l') := by
            rintro ⟨-, h2, -⟩
            rw [hu] at h2
            cases h2
          have heq : firstCapGo (n + 1) (x :: u :: l' :: rest) =
              if x ≠ '\n' ∧ isAsciiUpper u ∧ isAsciiLower l' then
                x :: '_' :: u ::
                  ((l' :: rest).takeWhile isAsciiLower ++
                    firstCapGo n ((l' :: rest).dropWhile isAsciiLower))
              else x :: firstCapGo n (u :: l' :: rest) := rfl
          rw [heq, if_neg hcond,
            ih (u :: l' :: rest) (fun c hc => h c (List.mem_cons_of_mem _ hc))]

theorem allCapSub_id_of_no_upper : ∀ {l : List Char},
    (∀ c ∈ l, isAsciiUpper c = false) → allCapSub l = l := by
  intro l
  induction l with
  | nil =>
    intro _
    rfl
  | cons x t ih =>
    intro h
    cases t with
    | nil => rfl
    | cons y rest =>
      have hy : isAsciiUpper y = false := h y (by simp)
      have heq : allCapSub (x :: y :: rest) =
          if (isAsciiLower x || isAsciiDigit x) && isAsciiUpper y then
            x :: '_' :: y :: allCapSub rest
          else x :: allCapSub (y :: rest) := rfl
      rw [heq, if_neg (by rw [hy, Bool.and_false]; exact Bool.false_ne_true),
        ih (fun c hc => h c (List.mem_cons_of_mem _ hc))]

theorem pyLower_id_of_no_upper {l : List Char}
    (h : ∀ c ∈ l, isAsciiUpper c = false) : pyLower l = l := by
  unfold pyLower
  rw [List.map_congr_left (g := id) (fun c hc => by simp [pyLowerChar, h c hc])]
  exact List.map_id l

/-! ## All-punctuation collapse -/

theorem metricSubGo_allU : ∀ (fuel : Nat) (l : List Char), l.length ≤ fuel →
    (∀ c ∈ l, c = '_' ∨ metricAllowed c = false) →
    ∀ c ∈ metricSubGo fuel l, c = '_' := by
  intro fuel
  induction fuel with
  | zero =>
    intro l hlen hall c hc
    have hl : l = [] := List.length_eq_zero.mp (Nat.le_zero.mp hlen)
    subst hl
    simpa [metricSubGo] using hc
  | succ n ih =>
    intro l hlen hall c hc
    cases l with
    | nil => simpa [metricSubGo] using hc
    | cons d rest =>
      have heq : metricSubGo (n + 1) (d :: rest) =
          if metricAllowed d then d :: metricSubGo n rest
          else '_' :: metricSubGo n (rest.dropWhile (fun e => !metricAllowed e)) := rfl
      rw [heq] at hc
      have hrlen : rest.length ≤ n := by
        simp only [List.length_cons] at hlen
        omega
      by_cases hd : metricAllowed d = true
      · rw [if_pos hd] at hc
        rcases List.mem_cons.mp hc with rfl | hc
        · rcases hall c (by simp) with h | h
          · exact h
          · rw [hd] at h
            cases h
        · exact ih rest hrlen (fun e he => hall e (List.mem_cons_of_mem _ he)) c hc
      · rw [if_neg hd] at hc
        rcases List.mem_cons.mp hc with rfl | hc
        · rfl
        · refine ih _ ?_ ?_ c hc
          · calc (rest.dropWhile (fun e => !metricAllowed e)).length
                ≤ rest.length := (List.dropWhile_sublist _).length_le
              _ ≤ n := hrlen
          · intro e he
            exact hall e (List.mem_cons_of_mem _ ((List.dropWhile_sublist _).subset he))

theorem metricReplacementSub_allPunct {s : List Char}
    (hall : ∀ c ∈ s, isAsciiAlpha c = false ∧ isAsciiDigit c = false ∧ c ≠ '.')
    (hne : s ≠ []) :
    (∀ c ∈ metricReplacementSub s, c = '_') ∧ metricReplacementSub s ≠ [] := by
  cases s with
  | nil => exact absurd rfl hne
  | cons d rest =>
    obtain ⟨hda, hdd, hdne⟩ := hall d (by simp)
    have heq : metricReplacementSub (d :: rest) =
        if !metricAllowed d then
          '_' :: metricSubRest (rest.dropWhile (fun e => !metricAllowed e))
        else if !isAsciiAlpha d then
          '_' :: metricSubRest (rest.dropWhile (fun e => !isAsciiAlpha e))
        else d :: metricSubRest rest := rfl
    by_cases hd : d = '_'
    · subst hd
      have hdrop : rest.dropWhile (fun e => !isAsciiAlpha e) = [] := by
        rw [List.dropWhile_eq_nil_iff]
        intro x hx
        simp [(hall x (List.mem_cons_of_mem _ hx)).1]
      rw [heq, if_neg (by decide), if_pos (by decide), hdrop]
      refine ⟨?_, by simp⟩
      intro c hc
      rcases List.mem_cons.mp hc with rfl | hc
      · rfl
      · rw [show metricSubRest [] = [] from rfl] at hc
        cases hc
    · have hd0 : metricAllowed d = false := by
        simp [metricAllowed, hda, hdd, hd, hdne]
      rw [heq, if_pos (by rw [hd0]; rfl)]
      constructor
      · intro c hc
        rcases List.mem_cons.mp hc with rfl | hc
        · rfl
        · refine metricSubGo_allU _ _ le_rfl ?_ c hc
          intro e he
          have he' := (List.dropWhile_sublist _).subset he
          obtain ⟨ha, hdd', hne'⟩ := hall e (List.mem_cons_of_mem _ he')
          by_cases h_ : e = '_'
          · exact .inl h_
          · exact .inr (by simp [metricAllowed, ha, hdd', h_, hne'])
      · simp

theorem dotCleanupGo_allU : ∀ (fuel : Nat) (l : List Char),
    (∀ c ∈ l, c = '_') → dotCleanupGo fuel l = l := by
  intro fuel
  induction fuel with
  | zero =>
    intro l _
    rfl
  | succ n ih =>
    intro l h
    cases l with
    | nil => rfl
    | cons d rest =>
      obtain rfl : d = '_' := h d (by simp)
      have hdrop : rest.dropWhile (fun e => e == '_') = [] := by
        rw [List.dropWhile_eq_nil_iff]
        intro x hx
        simp [h x (List.mem_cons_of_mem _ hx)]
      have hff : ('_' == '.') = false := rfl
      have htt : ('_' == '_') = true := rfl
      simp only [dotCleanupGo, hdrop, hff, htt, Bool.false_eq_true, if_false,
        if_true]
      rw [ih rest (fun c hc => h c (List.mem_cons_of_mem _ hc))]

theorem stripUnderscores_allU {l : List Char} (h : ∀ c ∈ l, c = '_') :
    stripUnderscores l = [] := by
  have h1 : l.dropWhile (fun d => d == '_') = [] := by
    rw [List.dropWhile_eq_nil_iff]
    intro x hx
    simp [h x hx]
  unfold stripUnderscores
  rw [h1]
  rfl

theorem convert_allPunct_nil {s : List Char}
    (hall : ∀ c ∈ s, isAsciiAlpha c = false ∧ isAsciiDigit c = false ∧ c ≠ '.')
    (hne : s ≠ []) : convertToUnderscoreSeparated s = [] := by
  have hup : ∀ c ∈ s, isAsciiUpper c = false :=
    fun c hc => alpha_false_not_upper (hall c hc).1
  unfold convertToUnderscoreSeparated firstCapSub
  rw [firstCapGo_id_of_no_upper _ _ hup, allCapSub_id_of_no_upper hup,
    pyLower_id_of_no_upper hup]
  obtain ⟨hU, -⟩ := metricReplacementSub_allPunct hall hne
  unfold dotCleanup
  rw [dotCleanupGo_allU _ _ hU]
  exact stripUnderscores_allU hU

theorem charClassSub_allClass {s : List Char}
    (h : ∀ c ∈ s, falseClassChar c = true) :
    ∀ c ∈ charClassSub s, c = '_' := by
  intro c hc
  rcases List.mem_map.mp hc with ⟨d, hd, rfl⟩
  rw [if_pos (h d hd)]

theorem nameCleanup_allU_nil {l : List Char} (hall : ∀ c ∈ l, c = '_')
    (hne : l ≠ []) : nameCleanup l = [] := by
  unfold nameCleanup
  rw [collapseU_allU hall hne]
  decide

theorem convert_punct_dot_start {c : Char} {rest : List Char}
    (hc : c = '.' ∨ c = '_')
    (hall : ∀ d ∈ c :: rest, isAsciiAlpha d = false ∧ isAsciiDigit d = false) :
    convertToUnderscoreSeparated (c :: rest) = [] := by
  have hup : ∀ d ∈ c :: rest, isAsciiUpper d = false :=
    fun d hd => alpha_false_not_upper (hall d hd).1
  unfold convertToUnderscoreSeparated firstCapSub
  rw [firstCapGo_id_of_no_upper _ _ hup, allCapSub_id_of_no_upper hup,
    pyLower_id_of_no_upper hup]
  have hdrop : rest.dropWhile (fun e => !isAsciiAlpha e) = [] := by
    rw [List.dropWhile_eq_nil_iff]
    intro x hx
    simp [(hall x (List.mem_cons_of_mem _ hx)).1]
  have hallowed : metricAllowed c = true := by
    rcases hc with rfl | rfl <;> rfl
  have halpha : isAsciiAlpha c = false := (hall c (List.mem_cons_self _ _)).1
  have heq : metricReplacementSub (c :: rest) =
      if !metricAllowed c then
        '_' :: metricSubRest (rest.dropWhile (fun e => !metricAllowed e))
      else if !isAsciiAlpha c then
        '_' :: metricSubRest (rest.dropWhile (fun e => !isAsciiAlpha e))
      else c :: metricSubRest rest := rfl
  rw [heq, if_neg (by rw [hallowed]; decide), if_pos (by rw [halpha]; rfl),
    hdrop]
  decide

/-! ## Claim theorems for the punctuation and digit edge cases -/

/-- C8, counterexample: the all-punctuation input consisting of one dot (a
punctuation character: not a letter, digit or whitespace) is returned
unchanged by normalization with `fix_case=False` — not the empty string. -/
theorem normalize_dot_punctuation_not_empty :
    (isAsciiAlpha '.' = false ∧ isAsciiDigit '.' = false ∧
      isPySpace '.' = false) ∧
    normalize ['.'] none false = ['.'] := by decide

/-- C8 (amended): the all-punctuation collapse holds branch by branch rather
than for both `fix_case` values at once.  Under `fix_case=False` every
nonempty input whose characters all belong to the substituted class (comma,
plus, star, minus, slash, brackets, braces, whitespace) normalizes to the
empty string.  Under `fix_case=True` every nonempty non-alphanumeric input
normalizes to the empty string when no character is a dot, and likewise when
the first character is a dot or an underscore (the anchored
`METRIC_REPLACEMENT` branch then wipes the whole non-letter string).  These
conditions are sufficient, not a characterization: a bare dot survives the
`fix_case=False` branch unchanged, and under `fix_case=True` an
all-punctuation input with an interior dot keeps its dot. -/
theorem normalize_punctuation_empty :
    (∀ s : List Char, s ≠ [] → (∀ c ∈ s, falseClassChar c = true) →
      normalize s none false = []) ∧
    (∀ s : List Char, s ≠ [] →
      (∀ c ∈ s, isAsciiAlpha c = false ∧ isAsciiDigit c = false ∧ c ≠ '.') →
      normalize s none true = []) ∧
    (∀ (c : Char) (rest : List Char), (c = '.' ∨ c = '_') →
      (∀ d ∈ c :: rest, isAsciiAlpha d = false ∧ isAsciiDigit d = false) →
      normalize (c :: rest) none true = []) ∧
    normalize ['.'] none false = ['.'] ∧
    normalize ['&', '.', '_', '&'] none true = ['.'] := by
  refine ⟨?_, ?_, ?_, by decide, by decide⟩
  · intro s hne hall
    rw [normalize_none_eq]
    simp only [Bool.false_eq_true, if_false]
    refine nameCleanup_allU_nil (charClassSub_allClass hall) ?_
    intro hc
    exact hne (List.map_eq_nil_iff.mp hc)
  · intro s hne hall
    rw [normalize_none_eq]
    simp only [if_true]
    rw [convert_allPunct_nil hall hne]
    rfl
  · intro c rest hc hall
    rw [normalize_none_eq]
    simp only [if_true]
    rw [convert_punct_dot_start hc hall]
    rfl

/-- C8, witness: a comma normalizes to the empty string under
`fix_case=False`; an ampersand, and the dot-initial all-punctuation input
of two dots, normalize to the empty string under `fix_case=True`. -/
theorem normalize_punctuation_empty_witness :
    (([','] : List Char) ≠ [] ∧ (∀ c ∈ [','], falseClassChar c = true) ∧
      normalize [','] none false = []) ∧
    ((['&'] : List Char) ≠ [] ∧
      (∀ c ∈ ['&'], isAsciiAlpha c = false ∧ isAsciiDigit c = false ∧ c ≠ '.') ∧
      normalize ['&'] none true = []) ∧
    (('.' = '.' ∨ '.' = '_') ∧
      (∀ d ∈ ['.', '.'], isAsciiAlpha d = false ∧ isAsciiDigit d = false) ∧
      normalize ['.', '.'] none true = []) :=
  ⟨⟨by decide, by decide, normalize_punctuation_empty.1 [','] (by decide) (by decide)⟩,
   ⟨by decide, by decide, normalize_punctuation_empty.2.1 ['&'] (by decide) (by decide)⟩,
   ⟨Or.inl rfl, by decide,
     normalize_punctuation_empty.2.2.1 '.' ['.'] (Or.inl rfl) (by decide)⟩⟩

/-- C9: on a purely numeric name the two letter-boundary (CamelCase) regexes
and the lowercasing are all the identity — they require a following
uppercase/lowercase letter to match — so `convert_to_underscore_separated`
degenerates to the character-class substitution followed by the
dot-underscore cleanup and the strip. -/
theorem digits_untouched_by_camel_regexes (s : List Char)
    (h : ∀ c ∈ s, isAsciiDigit c = true) :
    firstCapSub s = s ∧ allCapSub s = s ∧ pyLower s = s ∧
    convertToUnderscoreSeparated s =
      stripUnderscores (dotCleanup (metricReplacementSub s)) := by
  have hup : ∀ c ∈ s, isAsciiUpper c = false :=
    fun c hc => digit_not_upper (h c hc)
  have h1 : firstCapSub s = s := firstCapGo_id_of_no_upper _ _ hup
  have h2 : allCapSub s = s := allCapSub_id_of_no_upper hup
  have h3 : pyLower s = s := pyLower_id_of_no_upper hup
  refine ⟨h1, h2, h3, ?_⟩
  unfold convertToUnderscoreSeparated
  rw [h1, h2, h3]

/-- C9, witness: the all-digit name `123`. -/
theorem digits_untouched_witness :
    (∀ c ∈ "123".toList, isAsciiDigit c = true) ∧
    (firstCapSub "123".toList = "123".toList ∧
      allCapSub "123".toList = "123".toList ∧
      pyLower "123".toList = "123".toList ∧
      convertToUnderscoreSeparated "123".toList =
        stripUnderscores (dotCleanup (metricReplacementSub "123".toList))) :=
  ⟨by decide, digits_untouched_by_camel_regexes "123".toList (by decide)⟩

/-! ## Tag coercion -/

theorem normalizeTagsTypeList_eq_filterMap (l : List PyVal) :
    normalizeTagsTypeList l = l.filterMap coerceTag := by
  induction l with
  | nil => rfl
  | cons t rest ih =>
    simp only [normalizeTagsTypeList, List.filterMap_cons]
    cases coerceTag t <;> simp [ih]

theorem normalizeTagsTypeList_append (l₁ l₂ : List PyVal) :
    normalizeTagsTypeList (l₁ ++ l₂) =
      normalizeTagsTypeList l₁ ++ normalizeTagsTypeList l₂ := by
  rw [normalizeTagsTypeList_eq_filterMap, normalizeTagsTypeList_eq_filterMap,
    normalizeTagsTypeList_eq_filterMap, List.filterMap_append]

theorem normalizeTagsTypeList_length_of_all_some {l : List PyVal}
    (h : ∀ t ∈ l, (coerceTag t).isSome) :
    (normalizeTagsTypeList l).length = l.length := by
  induction l with
  | nil => rfl
  | cons t rest ih =>
    obtain ⟨s, hs⟩ := Option.isSome_iff_exists.mp (h t (List.mem_cons_self _ _))
    simp only [normalizeTagsTypeList, hs, List.length_cons]
    rw [ih (fun e he => h e (List.mem_cons_of_mem _ he))]

/-- C4, counterexample: in the list holding one `unicode` tag whose utf-8
encoding raises and one non-string object without a string conversion,
exactly one element is neither a string nor convertible by string coercion
(the object — the unicode value IS a string), yet both are dropped: the
result has length 0, not length 1. -/
theorem tags_unicode_failure_extra_drop :
    ([PyVal.uni ['a'] none, PyVal.obj none] : List PyVal).countP
        (fun t => !isBasestring t && (pyStrOfVal t).isNone) = 1 ∧
    (normalizeTagsTypeList [PyVal.uni ['a'] none, PyVal.obj none]).length ≠
      ([PyVal.uni ['a'] none, PyVal.obj none] : List PyVal).length - 1 := by
  decide

/-- C4 (amended): for every tag list with exactly one element whose string
coercion fails — where every other element's coercion (the `str()` call for
non-strings, `ensure_bytes` for strings) succeeds — normalization drops
exactly the failing element: the result is the coercions of the remaining
elements in their original order and its length is one less than the
input's. -/
theorem normalize_tags_drops_exactly_failed
    (pre post : List PyVal) (bad : PyVal)
    (hpre : ∀ t ∈ pre, (coerceTag t).isSome)
    (hpost : ∀ t ∈ post, (coerceTag t).isSome)
    (hbad : coerceTag bad = none) :
    normalizeTagsTypeList (pre ++ bad :: post) =
      normalizeTagsTypeList pre ++ normalizeTagsTypeList post ∧
    (normalizeTagsTypeList (pre ++ bad :: post)).length =
      (pre ++ bad :: post).length - 1 := by
  have hsplit : normalizeTagsTypeList (pre ++ bad :: post) =
      normalizeTagsTypeList pre ++ normalizeTagsTypeList post := by
    rw [normalizeTagsTypeList_append]
    congr 1
    simp only [normalizeTagsTypeList, hbad]
  refine ⟨hsplit, ?_⟩
  rw [hsplit]
  simp only [List.length_append, List.length_cons]
  rw [normalizeTagsTypeList_length_of_all_some hpre,
    normalizeTagsTypeList_length_of_all_some hpost]
  omega

/-- C4, witness: a good string tag, a failing object tag, a good string
tag. -/
theorem normalize_tags_drops_witness :
    (∀ t ∈ [PyVal.str ['a']], (coerceTag t).isSome) ∧
    (∀ t ∈ [PyVal.str ['b']], (coerceTag t).isSome) ∧
    coerceTag (PyVal.obj none) = none ∧
    (normalizeTagsTypeList ([PyVal.str ['a']] ++ PyVal.obj none :: [PyVal.str ['b']]) =
        normalizeTagsTypeList [PyVal.str ['a']] ++
          normalizeTagsTypeList [PyVal.str ['b']] ∧
      (normalizeTagsTypeList
          ([PyVal.str ['a']] ++ PyVal.obj none :: [PyVal.str ['b']])).length =
        (([PyVal.str ['a']] ++ PyVal.obj none :: [PyVal.str ['b']]) : List PyVal).length - 1) :=
  ⟨by decide, by decide, rfl,
    normalize_tags_drops_exactly_failed [PyVal.str ['a']] [PyVal.str ['b']]
      (PyVal.obj none) (by decide) (by decide) rfl⟩

/-! ## The explicit tag loop -/

theorem tagLoopIter_tags : ∀ (n : Nat) (st : TagLoopState),
    (tagLoopIter n st).tags = st.tags := by
  intro n
  induction n with
  | zero =>
    intro st
    rfl
  | succ k ih =>
    intro st
    show (tagLoopIter k (tagLoopStep st)).tags = st.tags
    rw [ih]
    unfold tagLoopStep
    cases h : st.tags[st.i]? with
    | none => rfl
    | some tag => rfl

theorem tagLoopIter_invariant : ∀ (k : Nat) (tags : List PyVal) (i : Nat)
    (acc : List (List Char)), tags.length ≤ i + k →
    (tagLoopIter k { tags := tags, i := i, normalized := acc }).normalized =
      acc ++ normalizeTagsTypeList (tags.drop i) := by
  intro k
  induction k with
  | zero =>
    intro tags i acc hlen
    show acc = acc ++ normalizeTagsTypeList (tags.drop i)
    rw [List.drop_eq_nil_of_le (by omega)]
    simp [normalizeTagsTypeList]
  | succ k ih =>
    intro tags i acc hlen
    show (tagLoopIter k
      (tagLoopStep { tags := tags, i := i, normalized := acc })).normalized = _
    by_cases hi : i < tags.length
    · have hget : tags[i]? = some tags[i] := List.getElem?_eq_getElem hi
      have hdrop : tags.drop i = tags[i] :: tags.drop (i + 1) :=
        List.drop_eq_getElem_cons hi
      unfold tagLoopStep
      simp only [hget]
      cases hcoerce : coerceTag tags[i] with
      | some s =>
        rw [ih tags (i + 1) (acc ++ [s]) (by omega), hdrop]
        simp only [normalizeTagsTypeList, hcoerce]
        simp [List.append_assoc]
      | none =>
        rw [ih tags (i + 1) acc (by omega), hdrop]
        simp only [normalizeTagsTypeList, hcoerce]
    · have hget : tags[i]? = none := List.getElem?_eq_none (by omega)
      unfold tagLoopStep
      simp only [hget]
      exact ih tags i acc (by omega)

/-- C10: the `_normalize_tags_type` loop never mutates its argument: running
it on the explicit state leaves the caller's `tags` list exactly as it was
(same length, same elements, same order), and the `normalized_tags` result
it builds is the newly constructed list the recursive embedding describes. -/
theorem normalize_tags_type_no_mutation (tags : List PyVal) :
    (normalizeTagsTypeLoop tags).tags = tags ∧
    (normalizeTagsTypeLoop tags).normalized = normalizeTagsType (some tags) := by
  constructor
  · exact tagLoopIter_tags _ _
  · show (tagLoopIter tags.length
      { tags := tags, i := 0, normalized := [] }).normalized = _
    rw [tagLoopIter_invariant tags.length tags 0 [] (by omega)]
    simp [normalizeTagsType]

/-! ## The run boundary -/

/-- C2: `run` never propagates an exception: when the check body raises (or
the instance list is empty, so the indexing raises), the result is the json
serialization of the one-element list holding the message/traceback mapping;
and every run returns either the empty string or such a payload. -/
theorem run_catches_and_serializes :
    (∀ (check : PyVal → Except PyExn Unit) (instances : List PyVal)
        (inst : PyVal) (e : PyExn),
      instances.head? = some inst → check inst = .error e →
      runFn check instances = runFailurePayload e.message e.trace) ∧
    (∀ (check : PyVal → Except PyExn Unit) (instances : List PyVal),
      runFn check instances = [] ∨
        ∃ m tb : List Char, runFn check instances = runFailurePayload m tb) := by
  constructor
  · intro check instances inst e hh hc
    simp only [runFn, hh, hc]
  · intro check instances
    cases hh : instances.head? with
    | none =>
      exact .inr ⟨indexErrorExn.message, indexErrorExn.trace,
        by simp only [runFn, hh]⟩
    | some inst =>
      cases hc : check inst with
      | ok u => exact .inl (by simp only [runFn, hh, hc])
      | error e => exact .inr ⟨e.message, e.trace, by simp only [runFn, hh, hc]⟩

/-- C2, witness: a check that raises makes `run` return the serialized
payload. -/
theorem run_catches_witness :
    runFn (fun _ => .error { message := "boom".toList, trace := "tb".toList })
        [PyVal.str []] =
      runFailurePayload "boom".toList "tb".toList :=
  run_catches_and_serializes.1
    (fun _ => .error { message := "boom".toList, trace := "tb".toList })
    [PyVal.str []] (PyVal.str [])
    { message := "boom".toList, trace := "tb".toList } rfl rfl

/-! ## Metric submission -/

/-- C5: for every metric kind — gauge, count, monotonic count, rate,
histogram, historate and the deprecated counter of increment/decrement —
submitting with value `None` is a no-op: `_submit_metric` returns
immediately and the aggregator state is unchanged. -/
theorem submit_metric_none_noop (name : List Char) (tags : Option (List PyVal))
    (hostname deviceName : Option (List Char)) (st : List MetricRecord) :
    (∀ mtype : MType,
      submitMetricFn mtype name none tags hostname deviceName st = st) ∧
    gaugeFn name none tags hostname deviceName st = st ∧
    countFn name none tags hostname deviceName st = st ∧
    monotonicCountFn name none tags hostname deviceName st = st ∧
    rateFn name none tags hostname deviceName st = st ∧
    histogramFn name none tags hostname deviceName st = st ∧
    historateFn name none tags hostname deviceName st = st ∧
    incrementFn name none tags hostname deviceName st = st ∧
    decrementFn name none tags hostname deviceName st = st :=
  ⟨fun _ => rfl, rfl, rfl, rfl, rfl, rfl, rfl, rfl, rfl⟩

/-! ## The event encoding boundary -/

theorem encodeEventFields_none_of_failing {ev : List (List Char × PyVal)}
    (h : ∃ kv ∈ ev, isFailingUnicode kv.2 = true) :
    encodeEventFields ev = none := by
  induction ev with
  | nil =>
    rcases h with ⟨kv, hm, -⟩
    cases hm
  | cons kv rest ih =>
    rcases h with ⟨kv', hm, hf⟩
    rcases List.mem_cons.mp hm with rfl | hm
    · obtain ⟨k, v⟩ := kv'
      cases v with
      | uni s enc =>
        cases enc with
        | none => rfl
        | some b => simp [isFailingUnicode] at hf
      | str s => simp [isFailingUnicode] at hf
      | int n => simp [isFailingUnicode] at hf
      | list l => simp [isFailingUnicode] at hf
      | obj r => simp [isFailingUnicode] at hf
    · have hrest := ih ⟨kv', hm, hf⟩
      obtain ⟨k, v⟩ := kv
      cases v with
      | uni s enc =>
        cases enc with
        | none => rfl
        | some b => simp [encodeEventFields, hrest]
      | str s => simp [encodeEventFields, hrest]
      | int n => simp [encodeEventFields, hrest]
      | list l => simp [encodeEventFields, hrest]
      | obj r => simp [encodeEventFields, hrest]

/-- C3, counterexample: an event whose only field is a `unicode` value that
cannot be encoded is NOT submitted at all — the aggregator receives nothing
(the state stays empty) instead of the event with the field dropped. -/
theorem event_encode_failure_drops_event :
    eventFn [("message".toList, PyVal.uni ['x'] none)] [] = some [] := rfl

/-- C3 (amended): when any event field's value cannot be coerced to a utf-8
string, `event` logs a warning and returns without submitting: the
aggregator state is unchanged and no partially-scrubbed event is sent. -/
theorem event_encode_failure_submits_nothing
    (ev : List (List Char × PyVal)) (st : List (List (List Char × PyVal)))
    (h : ∃ kv ∈ ev, isFailingUnicode kv.2 = true) :
    eventFn ev st = some st := by
  unfold eventFn
  rw [encodeEventFields_none_of_failing h]

/-- C3, witness: a two-character failing unicode field aborts the
submission. -/
theorem event_encode_failure_witness :
    (∃ kv ∈ [("message".toList, PyVal.uni ['x', 'y'] none)],
      isFailingUnicode kv.2 = true) ∧
    eventFn [("message".toList, PyVal.uni ['x', 'y'] none)] [] = some [] :=
  ⟨⟨("message".toList, PyVal.uni ['x', 'y'] none), List.mem_cons_self _ _, rfl⟩,
    event_encode_failure_submits_nothing _ []
      ⟨("message".toList, PyVal.uni ['x', 'y'] none), List.mem_cons_self _ _, rfl⟩⟩

end AgentCheck
